import Mathlib

/-!
Verification of the transaction-index design of the zen repository
(`qa/rpc-tests/txindex.py` and the surrounding spec): a persistent map from
transaction id to the on-disk location of its serialized bytes, maintained by
a chain indexer reacting to block connect/disconnect events and queried
through a read-only lookup facade.

The index core (IndexDB, BlockStore, ChainIndexer, QueryService,
VerboseDecoder) is modelled from the spec, since the repository snapshot
contains only the functional test; the test's own constructions (the
height-commitment script, the spending transaction, the amount checks) are
embedded directly from `txindex.py`.
-/

namespace TxIndex

/-- Transaction identifiers, abstracted to naturals. -/
abbrev Txid := Nat

/-- Raw byte sequences (each entry one byte). -/
abbrev Bytes := List Nat

/-- Modelled from the spec: transaction input referencing a previous output
(`CTxIn(COutPoint(txid, vout))` in the test). -/
structure CTxIn where
  prevTxid : Nat
  prevVout : Nat
deriving DecidableEq, Repr

/-- Modelled from the spec: transaction output carrying an indivisible-unit
amount and an opaque script (`CTxOut(to_satoshis(amount), scriptPubKey)`). -/
structure CTxOut where
  nValue : Nat
  scriptPubKey : Bytes
deriving DecidableEq, Repr

/-- Modelled from the spec: the structured transaction the index stores
opaquely as serialized bytes. -/
structure CTransaction where
  vin : List CTxIn
  vout : List CTxOut
deriving DecidableEq, Repr

/-- A ledger transaction: its id together with its structured contents. -/
structure Tx where
  txid : Txid
  tx : CTransaction
deriving DecidableEq, Repr

/-- A block: its hash and the transactions it contains. -/
structure Block where
  hash : Nat
  txs : List Tx
deriving DecidableEq, Repr

/-- Modelled from the spec (§3): IndexDB record
{blockHash, height, fileId, offset, length} for one transaction. -/
structure IndexRecord where
  blockHash : Nat
  height : Nat
  fileId : Nat
  offset : Nat
  length : Nat
deriving DecidableEq, Repr

/-- Modelled from the spec (§4.2): IndexDB, a persistent txid → record table,
embedded as an association list (newest binding first). -/
abbrev IndexDB := List (Txid × IndexRecord)

namespace IndexDB

/-- `get(txid) -> record | NotFound` (spec §4.2). -/
def get : IndexDB → Txid → Option IndexRecord
  | [], _ => none
  | (k, r) :: rest, t => if k = t then some r else get rest t

/-- `remove(txid)`: deletes the mapping; removing an absent key is not an
error (spec §4.2). -/
def remove : IndexDB → Txid → IndexDB
  | [], _ => []
  | (k, r) :: rest, t =>
    if k = t then remove rest t else (k, r) :: remove rest t

/-- `put(txid, record)`: inserts or overwrites (spec §4.2). -/
def put (db : IndexDB) (t : Txid) (r : IndexRecord) : IndexDB :=
  (t, r) :: db.remove t

end IndexDB

/-- Modelled from the spec (§4.2): one batch operation, a put or a remove. -/
inductive Op where
  | put (t : Txid) (r : IndexRecord)
  | remove (t : Txid)
deriving DecidableEq, Repr

/-- The key an operation touches. -/
def Op.key : Op → Txid
  | .put t _ => t
  | .remove t => t

/-- Apply one operation to the table. -/
def applyOp (db : IndexDB) : Op → IndexDB
  | .put t r => db.put t r
  | .remove t => db.remove t

/-- `batch(ops)`: applies a sequence of put/remove operations (spec §4.2);
atomicity across a crash is modelled separately by the journaled commit
protocol below. -/
def IndexDB.batch (db : IndexDB) (ops : List Op) : IndexDB :=
  ops.foldl applyOp db

/-- Effect of one operation on the value stored at key `t`. -/
def opEffect (o : Op) (t : Txid) (v : Option IndexRecord) : Option IndexRecord :=
  match o with
  | .put k r => if k = t then some r else v
  | .remove k => if k = t then none else v

/-- Effect of a whole operation sequence on the value stored at key `t`. -/
def opsEffect (ops : List Op) (t : Txid) (v : Option IndexRecord) : Option IndexRecord :=
  ops.foldl (fun acc o => opEffect o t acc) v

/-- Whether some operation in the sequence touches key `t`. -/
def touches (t : Txid) (ops : List Op) : Bool :=
  ops.any (fun o => o.key == t)

namespace IndexDB

theorem get_put_same (db : IndexDB) (t : Txid) (r : IndexRecord) :
    (db.put t r).get t = some r := by
  simp [put, get]

theorem get_remove_self (db : IndexDB) (t : Txid) :
    (db.remove t).get t = none := by
  induction db with
  | nil => rfl
  | cons p rest ih =>
    obtain ⟨k, r⟩ := p
    by_cases hk : k = t <;> simp [remove, get, hk, ih]

theorem get_remove_other (db : IndexDB) (t q : Txid) (h : t ≠ q) :
    (db.remove t).get q = db.get q := by
  induction db with
  | nil => rfl
  | cons p rest ih =>
    obtain ⟨k, r⟩ := p
    by_cases hk : k = t
    · subst hk
      simp [remove, get, h, ih]
    · by_cases hq : k = q <;> simp [remove, get, hk, hq, Ne.symm h, ih]

theorem get_put_other (db : IndexDB) (t q : Txid) (r : IndexRecord) (h : t ≠ q) :
    (db.put t r).get q = db.get q := by
  simp [put, get, h, get_remove_other db t q h]

theorem remove_idem (db : IndexDB) (t : Txid) :
    (db.remove t).remove t = db.remove t := by
  induction db with
  | nil => rfl
  | cons p rest ih =>
    obtain ⟨k, r⟩ := p
    by_cases hk : k = t <;> simp [remove, hk, ih]

end IndexDB

theorem get_applyOp (db : IndexDB) (o : Op) (t : Txid) :
    (applyOp db o).get t = opEffect o t (db.get t) := by
  cases o with
  | put k r =>
    by_cases hk : k = t
    · subst hk; simp [applyOp, opEffect, IndexDB.get_put_same]
    · simp [applyOp, opEffect, hk, IndexDB.get_put_other db k t r hk]
  | remove k =>
    by_cases hk : k = t
    · subst hk; simp [applyOp, opEffect, IndexDB.get_remove_self]
    · simp [applyOp, opEffect, hk, IndexDB.get_remove_other db k t hk]

theorem get_batch (ops : List Op) (db : IndexDB) (t : Txid) :
    (db.batch ops).get t = opsEffect ops t (db.get t) := by
  induction ops generalizing db with
  | nil => rfl
  | cons o rest ih =>
    simp only [IndexDB.batch, opsEffect, List.foldl_cons] at *
    rw [ih (applyOp db o), get_applyOp]

theorem opsEffect_of_not_touches (ops : List Op) (t : Txid)
    (v : Option IndexRecord) (h : touches t ops = false) :
    opsEffect ops t v = v := by
  induction ops generalizing v with
  | nil => rfl
  | cons o rest ih =>
    simp only [touches, List.any_cons, Bool.or_eq_false_iff] at h
    obtain ⟨h1, h2⟩ := h
    have hk : o.key ≠ t := by
      intro hkt
      simp [hkt] at h1
    have he : opEffect o t v = v := by
      cases o with
      | put k r => simp [opEffect, Op.key] at hk ⊢; simp [hk]
      | remove k => simp [opEffect, Op.key] at hk ⊢; simp [hk]
    simp only [opsEffect, List.foldl_cons, he]
    exact ih v h2

theorem opsEffect_of_touches (ops : List Op) (t : Txid)
    (v w : Option IndexRecord) (h : touches t ops = true) :
    opsEffect ops t v = opsEffect ops t w := by
  induction ops generalizing v w with
  | nil => simp [touches] at h
  | cons o rest ih =>
    by_cases hk : o.key = t
    · have he : opEffect o t v = opEffect o t w := by
        cases o with
        | put k r => simp [Op.key] at hk; simp [opEffect, hk]
        | remove k => simp [Op.key] at hk; simp [opEffect, hk]
      simp only [opsEffect, List.foldl_cons] at *
      rw [he]
    · have h2 : touches t rest = true := by
        simp only [touches, List.any_cons, Bool.or_eq_true] at h
        rcases h with h | h
        · exfalso; exact hk (by simpa using h)
        · exact h
      have he : ∀ u : Option IndexRecord, opEffect o t u = u := by
        intro u
        cases o with
        | put k r => simp [Op.key] at hk; simp [opEffect, hk]
        | remove k => simp [Op.key] at hk; simp [opEffect, hk]
      simp only [opsEffect, List.foldl_cons, he]
      exact ih v w h2

/-! ### BlockStore (spec §4.1) -/

/-- Modelled from the spec (§4.1): BlockStore, append-only byte storage;
a single file is modelled, addressed by (offset, length). -/
abbrev BlockStore := List Nat

namespace BlockStore

/-- `read(location) -> bytes`, failing (CorruptStorage) when the requested
range exceeds what is recorded (spec §4.1). -/
def read (bs : BlockStore) (offset length : Nat) : Option Bytes :=
  if offset + length ≤ bs.length then some ((bs.drop offset).take length)
  else none

theorem take_append_self {α : Type} (l₁ l₂ : List α) :
    (l₁ ++ l₂).take l₁.length = l₁ := by
  induction l₁ with
  | nil => rfl
  | cons a rest ih => simp [List.take, ih]

theorem drop_append_self {α : Type} (l₁ l₂ : List α) :
    (l₁ ++ l₂).drop l₁.length = l₂ := by
  induction l₁ with
  | nil => rfl
  | cons a rest ih => simp [List.drop, ih]

/-- Reading the bytes just appended returns them exactly. -/
theorem read_append_self (bs : BlockStore) (b ext : Bytes) :
    (bs ++ (b ++ ext)).read bs.length b.length = some b := by
  have hle : bs.length + b.length ≤ (bs ++ (b ++ ext)).length := by
    simp only [List.length_append]
    omega
  simp only [read, hle, if_pos, drop_append_self]
  rw [take_append_self]

/-- Appending never changes the outcome of a read that was in bounds:
issued locations stay valid (spec §4.1 monotonicity). -/
theorem read_append_of_le (bs : BlockStore) (ext : Bytes)
    (offset length : Nat) (h : offset + length ≤ bs.length) :
    (bs ++ ext).read offset length = bs.read offset length := by
  have hle : offset + length ≤ (bs ++ ext).length := by
    simp only [List.length_append]; omega
  simp only [read, hle, if_pos, h]
  rw [List.drop_append_eq_append_drop]
  have hod : offset - bs.length = 0 := by omega
  rw [hod]
  simp only [List.drop_zero]
  rw [List.take_append_eq_append_take]
  have hld : length - (bs.drop offset).length = 0 := by
    simp only [List.length_drop]; omega
  rw [hld]
  simp

end BlockStore

/-! ### Serialization of transactions (round-trip boundary) -/

/-- Serialize one input as two bytes-words. -/
def serIn (i : CTxIn) : Bytes := [i.prevTxid, i.prevVout]

/-- Serialize one output: amount, script length, script bytes. -/
def serOut (o : CTxOut) : Bytes := o.nValue :: o.scriptPubKey.length :: o.scriptPubKey

/-- Serialize a transaction: input count, inputs, output count, outputs. -/
def serializeTx (tx : CTransaction) : Bytes :=
  tx.vin.length :: (tx.vin.foldr (fun i acc => serIn i ++ acc)
    (tx.vout.length :: tx.vout.foldr (fun o acc => serOut o ++ acc) []))

/-- Parse `n` inputs from the stream, returning them with the rest. -/
def parseIns : Nat → Bytes → Option (List CTxIn × Bytes)
  | 0, rest => some ([], rest)
  | n + 1, a :: b :: rest =>
    match parseIns n rest with
    | some (ins, r) => some (⟨a, b⟩ :: ins, r)
    | none => none
  | _ + 1, _ => none

/-- Parse `n` outputs from the stream, returning them with the rest. -/
def parseOuts : Nat → Bytes → Option (List CTxOut × Bytes)
  | 0, rest => some ([], rest)
  | n + 1, v :: len :: rest =>
    if len ≤ rest.length then
      match parseOuts n (rest.drop len) with
      | some (outs, r) => some (⟨v, rest.take len⟩ :: outs, r)
      | none => none
    else none
  | _ + 1, _ => none

/-- Deserialize a transaction from a byte stream, returning leftover bytes. -/
def parseTx (b : Bytes) : Option (CTransaction × Bytes) :=
  match b with
  | [] => none
  | nIn :: rest =>
    match parseIns nIn rest with
    | none => none
    | some (ins, r1) =>
      match r1 with
      | [] => none
      | nOut :: r2 =>
        match parseOuts nOut r2 with
        | none => none
        | some (outs, r3) => some (⟨ins, outs⟩, r3)

theorem parseIns_roundtrip (ins : List CTxIn) (rest : Bytes) :
    parseIns ins.length (ins.foldr (fun i acc => serIn i ++ acc) rest) =
      some (ins, rest) := by
  induction ins with
  | nil => rfl
  | cons i tl ih =>
    simp only [serIn, List.cons_append, List.nil_append] at ih ⊢
    simp [parseIns, ih]

theorem parseOuts_roundtrip (outs : List CTxOut) (rest : Bytes) :
    parseOuts outs.length (outs.foldr (fun o acc => serOut o ++ acc) rest) =
      some (outs, rest) := by
  induction outs with
  | nil => rfl
  | cons o tl ih =>
    simp only [serOut, List.cons_append] at ih ⊢
    have hlen : o.scriptPubKey.length ≤
        (o.scriptPubKey ++ tl.foldr
          (fun o acc => o.nValue :: o.scriptPubKey.length :: (o.scriptPubKey ++ acc))
          rest).length := by
      simp only [List.length_append]; omega
    simp only [List.length_cons, List.foldr_cons, parseOuts]
    rw [if_pos hlen, BlockStore.drop_append_self, BlockStore.take_append_self, ih]

/-- Parsing a serialized transaction recovers it exactly, consuming all of
its bytes. -/
theorem parseTx_serializeTx (tx : CTransaction) :
    parseTx (serializeTx tx) = some (tx, []) := by
  simp only [serializeTx, parseTx, parseIns_roundtrip, parseOuts_roundtrip]

/-- The serialized bytes of a ledger transaction: what ChainIndexer hands to
BlockStore on connect. -/
def txBytes (t : Tx) : Bytes := serializeTx t.tx

/-! ### Chain events and the ChainIndexer (spec §4.3) -/

/-- Modelled from the spec (§3): the tagged event variant the validation
engine emits and ChainIndexer consumes. -/
inductive ChainEvent where
  | connect (b : Block) (height : Nat)
  | disconnect (b : Block) (height : Nat)
deriving DecidableEq, Repr

/-- The transaction ids contained in a block. -/
def blockTxids (b : Block) : List Txid := b.txs.map (fun tx => tx.txid)

/-- The canonical chain as the validation engine sees it: newest block
first, paired with its height. -/
abbrev Chain := List (Block × Nat)

/-- All txids contained in blocks of the canonical chain. -/
def chainTxids : Chain → List Txid
  | [] => []
  | (b, _) :: rest => blockTxids b ++ chainTxids rest

/-- Locate a txid on the canonical chain: its block, height and
transaction. -/
def chainFind : Chain → Txid → Option (Block × Nat × Tx)
  | [], _ => none
  | (b, h) :: rest, t =>
    match b.txs.find? (fun tx => tx.txid == t) with
    | some tx => some (b, h, tx)
    | none => chainFind rest t

/-- How an event changes the canonical chain: connect pushes, disconnect
pops the tip. -/
def applyChain (c : Chain) : ChainEvent → Chain
  | .connect b h => (b, h) :: c
  | .disconnect _ _ => c.tail

/-- Fold a stream of events over the canonical chain. -/
def runChain (c : Chain) (evs : List ChainEvent) : Chain :=
  evs.foldl applyChain c

/-- Modelled from the spec (§4.3): validity of one event against the chain —
connected blocks carry fresh, duplicate-free txids (consensus uniqueness)
and only the tip is disconnected. -/
def eventOK (c : Chain) : ChainEvent → Prop
  | .connect b _ => (blockTxids b).Nodup ∧ ∀ t ∈ blockTxids b, t ∉ chainTxids c
  | .disconnect b h => c.head? = some (b, h)

/-- A stream of events each valid at the chain state it meets (spec §4.3:
events arrive strictly ordered, tip-down disconnects then bottom-up
connects). -/
inductive ValidFrom : Chain → List ChainEvent → Prop
  | nil (c : Chain) : ValidFrom c []
  | cons {c : Chain} {e : ChainEvent} {es : List ChainEvent} :
      eventOK c e → ValidFrom (applyChain c e) es → ValidFrom c (e :: es)

/-- The node-local state the index core owns: the record table and the
byte store. -/
structure NodeState where
  db : IndexDB
  bs : BlockStore
deriving DecidableEq, Repr

/-- Fresh node state: empty index, empty store. -/
def initState : NodeState := ⟨[], []⟩

/-- Modelled from the spec (§4.3, §9): on connect, persist each
transaction's bytes via BlockStore and produce one put per transaction;
transaction-granular byte ranges are used (spec §9 leaves this open; either
choice satisfies the round-trip property). Returns the grown store and the
operations of the block's single batch. -/
def indexTxs : BlockStore → Nat → Nat → List Tx → BlockStore × List Op
  | bs, _, _, [] => (bs, [])
  | bs, bHash, height, tx :: rest =>
    let res := indexTxs (bs ++ txBytes tx) bHash height rest
    (res.1,
      Op.put tx.txid ⟨bHash, height, 0, bs.length, (txBytes tx).length⟩ :: res.2)

/-- Modelled from the spec (§4.3, §6): ChainIndexer's reaction to one event.
When indexing is disabled it is a no-op subscriber; when enabled, a connect
appends the block's transactions to BlockStore and submits one batch of
puts, a disconnect submits one batch of removes. -/
def stepEvent (enabled : Bool) (s : NodeState) : ChainEvent → NodeState
  | .connect b h =>
    if enabled then
      ⟨s.db.batch (indexTxs s.bs b.hash h b.txs).2,
        (indexTxs s.bs b.hash h b.txs).1⟩
    else s
  | .disconnect b _ =>
    if enabled then
      ⟨s.db.batch (b.txs.map (fun tx => Op.remove tx.txid)), s.bs⟩
    else s

/-- Fold the event stream through ChainIndexer. -/
def runEvents (enabled : Bool) (s : NodeState) (evs : List ChainEvent) : NodeState :=
  evs.foldl (stepEvent enabled) s

/-- Modelled from the spec (§7): lookup outcomes, with `disabledIndex`
distinct from `notFound`. -/
inductive LookupResult where
  | found (rawBytes : Bytes) (blockHash : Nat) (height : Nat)
  | notFound
  | corruptStorage
  | disabledIndex
deriving DecidableEq, Repr

/-- Modelled from the spec (§4.4, §6, §7): QueryService lookup, returning
the result together with the node state after the call so the frame
property is statable: get the record, read the byte range, classify
failures. -/
def lookupM (enabled : Bool) (s : NodeState) (t : Txid) :
    LookupResult × NodeState :=
  if enabled then
    match s.db.get t with
    | none => (.notFound, s)
    | some r =>
      match s.bs.read r.offset r.length with
      | none => (.corruptStorage, s)
      | some bytes => (.found bytes r.blockHash r.height, s)
  else (.disabledIndex, s)

/-- The result component of a lookup. -/
def lookup (enabled : Bool) (s : NodeState) (t : Txid) : LookupResult :=
  (lookupM enabled s t).1

/-! ### Helper lemmas on chain search and the indexer -/

theorem opsEffect_cons (o : Op) (ops : List Op) (t : Txid)
    (v : Option IndexRecord) :
    opsEffect (o :: ops) t v = opsEffect ops t (opEffect o t v) := rfl

theorem touches_cons (t : Txid) (o : Op) (ops : List Op) :
    touches t (o :: ops) = ((o.key == t) || touches t ops) := by
  simp [touches]

theorem read_some_bound (bs : BlockStore) (off len : Nat) (x : Bytes)
    (h : bs.read off len = some x) : off + len ≤ bs.length := by
  by_cases hb : off + len ≤ bs.length
  · exact hb
  · simp [BlockStore.read, hb] at h

theorem find_txid_eq_none (txs : List Tx) (t : Txid) :
    (txs.find? (fun tx => tx.txid == t) = none) ↔
      t ∉ txs.map (fun tx => tx.txid) := by
  rw [List.find?_eq_none]
  constructor
  · intro hall hmem
    obtain ⟨tx, htx, heq⟩ := List.mem_map.mp hmem
    exact hall tx htx (by simp [heq])
  · intro hnm tx htx hbeq
    exact hnm (List.mem_map.mpr ⟨tx, htx, by simpa using hbeq⟩)

theorem find_txid_eq_some (txs : List Tx) (t : Txid) (tx : Tx)
    (h : txs.find? (fun tx => tx.txid == t) = some tx) :
    tx ∈ txs ∧ tx.txid = t := by
  refine ⟨List.mem_of_find?_eq_some h, ?_⟩
  have hp := List.find?_some h
  simpa using hp

theorem mem_blockTxids_of_find (b : Block) (t : Txid) (tx : Tx)
    (h : b.txs.find? (fun tx => tx.txid == t) = some tx) :
    t ∈ blockTxids b := by
  obtain ⟨hmem, htxid⟩ := find_txid_eq_some _ _ _ h
  rw [blockTxids, ← htxid]
  exact List.mem_map_of_mem _ hmem

theorem chainFind_eq_none_iff (c : Chain) (t : Txid) :
    chainFind c t = none ↔ t ∉ chainTxids c := by
  induction c with
  | nil => simp [chainFind, chainTxids]
  | cons p rest ih =>
    obtain ⟨b, h⟩ := p
    simp only [chainFind, chainTxids, List.mem_append]
    cases hf : b.txs.find? (fun tx => tx.txid == t) with
    | some tx =>
      have htb : t ∈ blockTxids b := mem_blockTxids_of_find b t tx hf
      constructor
      · intro hc; exact absurd hc (by simp)
      · intro hnot; exact absurd (Or.inl htb) hnot
    | none =>
      have hnb : t ∉ blockTxids b := (find_txid_eq_none _ _).mp hf
      simp [hnb, ih]

theorem chainFind_some_mem (c : Chain) (t : Txid) (b : Block) (h : Nat)
    (tx : Tx) (hf : chainFind c t = some (b, h, tx)) : t ∈ chainTxids c := by
  by_contra hn
  have hnone := (chainFind_eq_none_iff c t).mpr hn
  rw [hnone] at hf
  cases hf

theorem map_remove_txids (txs : List Tx) :
    txs.map (fun tx => Op.remove tx.txid) =
      (txs.map (fun tx => tx.txid)).map Op.remove := by
  simp [List.map_map, Function.comp]

theorem opsEffect_removes (ts : List Txid) (t : Txid) (v : Option IndexRecord) :
    opsEffect (ts.map Op.remove) t v = if t ∈ ts then none else v := by
  induction ts generalizing v with
  | nil => simp [opsEffect]
  | cons k tl ih =>
    rw [List.map_cons, opsEffect_cons]
    by_cases hk : k = t
    · subst hk
      simp only [opEffect, if_pos rfl, ih, List.mem_cons, true_or, if_pos]
      by_cases hm : k ∈ tl <;> simp [hm]
    · simp only [opEffect, if_neg hk, ih, List.mem_cons]
      have : (t = k ∨ t ∈ tl) ↔ t ∈ tl := by
        constructor
        · rintro (h | h)
          · exact absurd h.symm hk
          · exact h
        · exact Or.inr
      rw [if_congr this rfl rfl]

/-- Everything the connect batch guarantees: the store only grows, the batch
touches exactly the block's txids, and each transaction's put ends at a
record whose range reads back its serialized bytes from the grown store. -/
theorem indexTxs_spec (bHash height : Nat) (txs : List Tx) (bs : BlockStore)
    (hnd : (txs.map (fun tx => tx.txid)).Nodup) :
    ∃ ext : Bytes,
      (indexTxs bs bHash height txs).1 = bs ++ ext ∧
      (∀ t : Txid, touches t (indexTxs bs bHash height txs).2 = true ↔
        t ∈ txs.map (fun tx => tx.txid)) ∧
      (∀ tx ∈ txs, ∀ v : Option IndexRecord,
        ∃ r : IndexRecord,
          opsEffect (indexTxs bs bHash height txs).2 tx.txid v = some r ∧
          r.blockHash = bHash ∧ r.height = height ∧
          (indexTxs bs bHash height txs).1.read r.offset r.length =
            some (txBytes tx)) := by
  induction txs generalizing bs with
  | nil =>
    refine ⟨[], by simp [indexTxs], ?_, by simp⟩
    intro t
    simp [indexTxs, touches]
  | cons tx rest ih =>
    simp only [List.map_cons, List.nodup_cons] at hnd
    obtain ⟨hhead, hndr⟩ := hnd
    obtain ⟨ext, hext, htouch, hspec⟩ := ih (bs ++ txBytes tx) hndr
    refine ⟨txBytes tx ++ ext, ?_, ?_, ?_⟩
    · simp only [indexTxs]
      rw [hext, List.append_assoc]
    · intro t
      simp only [indexTxs]
      rw [touches_cons]
      simp only [Op.key]
      rw [Bool.or_eq_true, beq_iff_eq, htouch t]
      simp only [List.map_cons, List.mem_cons]
      constructor
      · rintro (h | h)
        · exact Or.inl h.symm
        · exact Or.inr h
      · rintro (h | h)
        · exact Or.inl h.symm
        · exact Or.inr h
    · intro tx0 hmem v
      rcases List.mem_cons.mp hmem with heq | hmtl
      · subst heq
        refine ⟨⟨bHash, height, 0, bs.length, (txBytes tx0).length⟩,
          ?_, rfl, rfl, ?_⟩
        · simp only [indexTxs]
          rw [opsEffect_cons]
          have heff : opEffect
              (Op.put tx0.txid
                ⟨bHash, height, 0, bs.length, (txBytes tx0).length⟩)
              tx0.txid v =
              some ⟨bHash, height, 0, bs.length, (txBytes tx0).length⟩ := by
            simp [opEffect]
          rw [heff]
          have hnt : touches tx0.txid
              (indexTxs (bs ++ txBytes tx0) bHash height rest).2 = false := by
            cases hbo : touches tx0.txid
                (indexTxs (bs ++ txBytes tx0) bHash height rest).2 with
            | false => rfl
            | true => exact absurd ((htouch tx0.txid).mp hbo) hhead
          exact opsEffect_of_not_touches _ _ _ hnt
        · simp only [indexTxs]
          rw [hext, List.append_assoc]
          exact BlockStore.read_append_self bs (txBytes tx0) ext
      · have hne : tx.txid ≠ tx0.txid := by
          intro hc
          exact hhead (hc ▸ List.mem_map_of_mem _ hmtl)
        obtain ⟨r, heff, hbh, hht, hread⟩ := hspec tx0 hmtl v
        refine ⟨r, ?_, hbh, hht, ?_⟩
        · simp only [indexTxs]
          rw [opsEffect_cons]
          have : opEffect
              (Op.put tx.txid
                ⟨bHash, height, 0, bs.length, (txBytes tx).length⟩)
              tx0.txid v = v := by
            simp [opEffect, hne]
          rw [this]
          exact heff
        · simp only [indexTxs]
          exact hread

/-! ### The coverage invariant (spec §3, §8) -/

/-- The cross-entity invariant of spec §3 together with what C7 needs: the
chain's txids are duplicate-free, every transaction on the canonical chain
has exactly one record whose fields name its block and height and whose
byte range reads back the transaction's serialized bytes, and no other txid
is present. -/
def Inv (c : Chain) (s : NodeState) : Prop :=
  (chainTxids c).Nodup ∧
  ∀ t : Txid,
    (∀ b : Block, ∀ h : Nat, ∀ tx : Tx, chainFind c t = some (b, h, tx) →
      ∃ r : IndexRecord, s.db.get t = some r ∧ r.blockHash = b.hash ∧
        r.height = h ∧ s.bs.read r.offset r.length = some (txBytes tx)) ∧
    (chainFind c t = none → s.db.get t = none)

theorem inv_init : Inv [] initState := by
  refine ⟨List.nodup_nil, fun t => ⟨?_, ?_⟩⟩
  · intro b h tx hf
    cases hf
  · intro _
    rfl

/-- One valid event preserves the invariant (indexing enabled). -/
theorem inv_step (c : Chain) (s : NodeState) (e : ChainEvent)
    (hInv : Inv c s) (hOK : eventOK c e) :
    Inv (applyChain c e) (stepEvent true s e) := by
  obtain ⟨hnd, hrec⟩ := hInv
  cases e with
  | connect b hh =>
    obtain ⟨hndb, hfresh⟩ := hOK
    have hndb2 : (b.txs.map (fun tx => tx.txid)).Nodup := hndb
    obtain ⟨ext, hext, htouch, hspec⟩ := indexTxs_spec b.hash hh b.txs s.bs hndb2
    simp only [stepEvent, applyChain, if_true]
    constructor
    · show (blockTxids b ++ chainTxids c).Nodup
      rw [List.nodup_append]
      exact ⟨hndb, hnd, fun t ht1 ht2 => hfresh t ht1 ht2⟩
    · intro t
      constructor
      · intro b' h' tx' hf
        simp only [chainFind] at hf
        cases hfind : b.txs.find? (fun tx => tx.txid == t) with
        | some tx0 =>
          rw [hfind] at hf
          simp only [Option.some.injEq, Prod.mk.injEq] at hf
          obtain ⟨hb, hh2, htx⟩ := hf
          obtain ⟨hmem, htxid⟩ := find_txid_eq_some _ _ _ hfind
          obtain ⟨r, heff, hbh, hht, hread⟩ := hspec tx0 hmem (s.db.get tx0.txid)
          refine ⟨r, ?_, ?_, ?_, ?_⟩
          · show (s.db.batch _).get t = some r
            rw [get_batch, ← htxid]
            exact heff
          · rw [← hb]; exact hbh
          · rw [← hh2]; exact hht
          · rw [← htx]; exact hread
        | none =>
          rw [hfind] at hf
          have hnb : t ∉ blockTxids b := (find_txid_eq_none _ _).mp hfind
          have hnt : touches t (indexTxs s.bs b.hash hh b.txs).2 = false := by
            cases hbo : touches t (indexTxs s.bs b.hash hh b.txs).2 with
            | false => rfl
            | true => exact absurd ((htouch t).mp hbo) hnb
          obtain ⟨r, hget, hbh, hht, hread⟩ := (hrec t).1 b' h' tx' hf
          refine ⟨r, ?_, hbh, hht, ?_⟩
          · show (s.db.batch _).get t = some r
            rw [get_batch, opsEffect_of_not_touches _ _ _ hnt]
            exact hget
          · rw [hext,
              BlockStore.read_append_of_le _ _ _ _ (read_some_bound _ _ _ _ hread)]
            exact hread
      · intro hf
        simp only [chainFind] at hf
        cases hfind : b.txs.find? (fun tx => tx.txid == t) with
        | some tx0 =>
          rw [hfind] at hf
          cases hf
        | none =>
          rw [hfind] at hf
          have hnb : t ∉ blockTxids b := (find_txid_eq_none _ _).mp hfind
          have hnt : touches t (indexTxs s.bs b.hash hh b.txs).2 = false := by
            cases hbo : touches t (indexTxs s.bs b.hash hh b.txs).2 with
            | false => rfl
            | true => exact absurd ((htouch t).mp hbo) hnb
          show (s.db.batch _).get t = none
          rw [get_batch, opsEffect_of_not_touches _ _ _ hnt]
          exact (hrec t).2 hf
  | disconnect b hh =>
    cases c with
    | nil => cases hOK
    | cons p rest =>
      obtain ⟨b0, h0⟩ := p
      have hbb : b0 = b ∧ h0 = hh := by
        simpa [eventOK] using hOK
      obtain ⟨hb0, hh0⟩ := hbb
      subst hb0
      subst hh0
      simp only [chainTxids] at hnd
      have hsplit := List.nodup_append.mp hnd
      have hndr : (chainTxids rest).Nodup := hsplit.2.1
      have hdisj : ∀ t ∈ blockTxids b0, t ∉ chainTxids rest :=
        fun t h1 h2 => hsplit.2.2 h1 h2
      simp only [stepEvent, applyChain, List.tail_cons, if_true]
      constructor
      · exact hndr
      · intro t
        have hopseff : opsEffect (b0.txs.map (fun tx => Op.remove tx.txid)) t
            (s.db.get t) =
            if t ∈ blockTxids b0 then none else s.db.get t := by
          rw [map_remove_txids]
          exact opsEffect_removes _ _ _
        constructor
        · intro b' h' tx' hf
          have htm : t ∈ chainTxids rest := chainFind_some_mem rest t b' h' tx' hf
          have hnb : t ∉ blockTxids b0 := fun hc => hdisj t hc htm
          have hfc : chainFind ((b0, h0) :: rest) t = some (b', h', tx') := by
            simp only [chainFind, (find_txid_eq_none b0.txs t).mpr hnb]
            exact hf
          obtain ⟨r, hget, hbh, hht, hread⟩ := (hrec t).1 b' h' tx' hfc
          refine ⟨r, ?_, hbh, hht, hread⟩
          show (s.db.batch _).get t = some r
          rw [get_batch, hopseff, if_neg hnb]
          exact hget
        · intro hf
          show (s.db.batch _).get t = none
          rw [get_batch, hopseff]
          by_cases hb : t ∈ blockTxids b0
          · rw [if_pos hb]
          · rw [if_neg hb]
            have hfc : chainFind ((b0, h0) :: rest) t = none := by
              simp only [chainFind, (find_txid_eq_none b0.txs t).mpr hb]
              exact hf
            exact (hrec t).2 hfc

/-- A valid event stream preserves the invariant end to end. -/
theorem inv_run (c : Chain) (s : NodeState) (evs : List ChainEvent)
    (hInv : Inv c s) (hv : ValidFrom c evs) :
    Inv (runChain c evs) (runEvents true s evs) := by
  induction evs generalizing c s with
  | nil => exact hInv
  | cons e es ih =>
    cases hv with
    | cons hOK hrest =>
      exact ih (applyChain c e) (stepEvent true s e)
        (inv_step c s e hInv hOK) hrest

/-! ### VerboseDecoder (spec §4.5, §6; txindex.py lines 67–74) -/

/-- The fixed display→indivisible scale factor (1 coin = 10^8 zatoshi). -/
def scaleFactor : Nat := 100000000

/-- Modelled from the spec (§4.5): `to_satoshis` of the test framework, the
exact display→indivisible conversion (no rounding loss for valid
amounts). -/
def to_satoshis (a : ℚ) : ℚ := a * (scaleFactor : ℚ)

/-- Modelled from the spec (§6): one decoded output, with the display-scale
decimal `value` and the integer indivisible-unit `valueZat`. -/
structure VerboseOut where
  value : ℚ
  valueZat : Nat
  scriptPubKey : Bytes
deriving DecidableEq, Repr

/-- Modelled from the spec (§4.5): decoding one output; indivisible units and
the display amount are exact conversions of one another. -/
def decodeOut (o : CTxOut) : VerboseOut :=
  ⟨(o.nValue : ℚ) / (scaleFactor : ℚ), o.nValue, o.scriptPubKey⟩

/-- Modelled from the spec (§6): the verbose transaction view produced for a
lookup: decoded outputs plus containing block hash and height. -/
structure VerboseTransaction where
  vout : List VerboseOut
  blockHash : Nat
  height : Nat
deriving DecidableEq, Repr

/-- Modelled from the spec (§4.5, §6): VerboseDecoder on a parsed
transaction. -/
def decodeVerbose (tx : CTransaction) (blockHash height : Nat) :
    VerboseTransaction :=
  ⟨tx.vout.map decodeOut, blockHash, height⟩

/-! ### Crash-atomic batch commit (spec §4.2, §5) -/

/-- Modelled from the spec (§4.2, §6): the durable image of IndexDB — the
main table plus an optional batch journal entry with its commit mark. -/
structure DurableState where
  main : IndexDB
  journal : Option (List Op × Bool)
deriving DecidableEq, Repr

/-- The points at which a crash can interrupt a batch commit: before the
journal write, after the journal write, after the commit mark with `j`
operations already applied to the main table, or after completion. -/
inductive CrashPoint where
  | start
  | journaled
  | committed (j : Nat)
  | finished
deriving DecidableEq, Repr

/-- Modelled from the spec (§4.2, §5): the durable state a crash leaves at
each interruption point of the journaled commit of `ops` against `db`. -/
def durableAt (db : IndexDB) (ops : List Op) : CrashPoint → DurableState
  | .start => ⟨db, none⟩
  | .journaled => ⟨db, some (ops, false)⟩
  | .committed j => ⟨db.batch (ops.take j), some (ops, true)⟩
  | .finished => ⟨db.batch ops, none⟩

/-- Modelled from the spec (§5): restart recovery — replay a committed
journal, roll back an uncommitted one. -/
def recover : DurableState → IndexDB
  | ⟨m, none⟩ => m
  | ⟨m, some (_, false)⟩ => m
  | ⟨m, some (ops, true)⟩ => m.batch ops

theorem touches_take (t : Txid) (ops : List Op) (j : Nat)
    (h : touches t (ops.take j) = true) : touches t ops = true := by
  simp only [touches, List.any_eq_true] at h ⊢
  obtain ⟨o, ho, hk⟩ := h
  exact ⟨o, List.take_subset j ops ho, hk⟩

/-- Replaying the full batch over any partially applied state lands in the
fully applied state, key by key. -/
theorem opsEffect_replay (ops : List Op) (j : Nat) (t : Txid)
    (v : Option IndexRecord) :
    opsEffect ops t (opsEffect (ops.take j) t v) = opsEffect ops t v := by
  cases hbo : touches t ops with
  | true => exact opsEffect_of_touches ops t _ v hbo
  | false =>
    have hft : touches t (ops.take j) = false := by
      cases hb2 : touches t (ops.take j) with
      | false => rfl
      | true => rw [touches_take t ops j hb2] at hbo; cases hbo
    rw [opsEffect_of_not_touches _ _ _ hft]

/-! ### The test's height-commitment script (txindex.py lines 49–52) -/

/-- A script element as the test's CScript builds it: an opcode, a data
push, or a small-number push. -/
inductive ScriptElem where
  | op (code : Nat)
  | pushData (data : Bytes)
  | pushNum (n : Nat)
deriving DecidableEq, Repr

def OP_DUP : Nat := 0x76
def OP_HASH160 : Nat := 0xa9
def OP_EQUALVERIFY : Nat := 0x88
def OP_CHECKSIG : Nat := 0xac
def OP_CHECKBLOCKATHEIGHT : Nat := 0xb4

/-- `swap_bytes`: reverse the byte order of a hash (its RPC hex display
form versus the committed form). -/
def swap_bytes (b : Bytes) : Bytes := b.reverse

/-- The scriptPubKey built at txindex.py line 52: pay-to-pubkey-hash
followed by a height commitment to the byte-swapped hash of the first
mined block and the height literal 1. -/
def testScriptPubKey (blocks : List Bytes) (addressHash : Bytes) :
    List ScriptElem :=
  [.op OP_DUP, .op OP_HASH160, .pushData addressHash, .op OP_EQUALVERIFY,
   .op OP_CHECKSIG, .pushData (swap_bytes (blocks.headD [])), .pushNum 1,
   .op OP_CHECKBLOCKATHEIGHT]

/-- Extract the (hash, height) pair a script commits to: the data push and
number push immediately preceding OP_CHECKBLOCKATHEIGHT. -/
def committedPair : List ScriptElem → Option (Bytes × Nat)
  | .pushData h :: .pushNum n :: .op c :: rest =>
    if c = OP_CHECKBLOCKATHEIGHT then some (h, n)
    else committedPair (.pushNum n :: .op c :: rest)
  | _ :: rest => committedPair rest
  | [] => none

/-- The chain is initialized empty (txindex.py line 22), so the block at
position `i` of the mined list sits at height `i + 1`. -/
def minedHeight (i : Nat) : Nat := i + 1

/-- The mined block hash recorded at a given height. -/
def blockAtHeight (blocks : List Bytes) (h : Nat) : Option Bytes :=
  blocks.get? (h - 1)

/-! ### Further helpers for the claim theorems -/

/-- Boolean check of one event's validity, for concrete evaluation. -/
def eventOKb (c : Chain) : ChainEvent → Bool
  | .connect b _ =>
    decide ((blockTxids b).Nodup) &&
      decide (∀ t ∈ blockTxids b, t ∉ chainTxids c)
  | .disconnect b h => c.head? == some (b, h)

/-- Boolean check of a whole event stream's validity. -/
def validFromb (c : Chain) : List ChainEvent → Bool
  | [] => true
  | e :: es => eventOKb c e && validFromb (applyChain c e) es

theorem eventOKb_sound (c : Chain) (e : ChainEvent)
    (h : eventOKb c e = true) : eventOK c e := by
  cases e with
  | connect b hh =>
    simp only [eventOKb, Bool.and_eq_true, decide_eq_true_eq] at h
    exact h
  | disconnect b hh =>
    simp only [eventOKb, beq_iff_eq] at h
    exact h

theorem validFromb_sound (c : Chain) (evs : List ChainEvent)
    (h : validFromb c evs = true) : ValidFrom c evs := by
  induction evs generalizing c with
  | nil => exact ValidFrom.nil c
  | cons e es ih =>
    simp only [validFromb, Bool.and_eq_true] at h
    exact ValidFrom.cons (eventOKb_sound c e h.1) (ih (applyChain c e) h.2)

theorem validFrom_append (c : Chain) (l1 l2 : List ChainEvent)
    (h : ValidFrom c (l1 ++ l2)) :
    ValidFrom c l1 ∧ ValidFrom (runChain c l1) l2 := by
  induction l1 generalizing c with
  | nil => exact ⟨ValidFrom.nil c, h⟩
  | cons e es ih =>
    cases h with
    | cons hOK hrest =>
      obtain ⟨h1, h2⟩ := ih (applyChain c e) hrest
      exact ⟨ValidFrom.cons hOK h1, by simpa [runChain] using h2⟩

theorem find_txid_of_mem (b : Block) (t : Txid) (h : t ∈ blockTxids b) :
    ∃ tx, b.txs.find? (fun tx => tx.txid == t) = some tx := by
  cases hf : b.txs.find? (fun tx => tx.txid == t) with
  | some tx => exact ⟨tx, rfl⟩
  | none => exact absurd h ((find_txid_eq_none _ _).mp hf)

/-- What the invariant yields for lookup: a transaction on the canonical
chain is served as a found result carrying exactly its serialized bytes,
its block hash and its height. -/
theorem lookup_found_of_chainFind (evs : List ChainEvent)
    (hv : ValidFrom [] evs) (t : Txid) (b : Block) (h : Nat) (tx : Tx)
    (hf : chainFind (runChain [] evs) t = some (b, h, tx)) :
    lookup true (runEvents true initState evs) t =
      .found (txBytes tx) b.hash h := by
  have hInv := inv_run [] initState evs inv_init hv
  obtain ⟨hnd, hrec⟩ := hInv
  obtain ⟨r, hget, hbh, hht, hread⟩ := (hrec t).1 b h tx hf
  simp [lookup, lookupM, hget, hread, hbh, hht]

/-! ### Claim theorems -/

/-- C1: with indexing enabled, after any valid event stream the set of
txids present in IndexDB equals exactly the set of txids contained in
blocks on the canonical chain; every transaction of a just-connected block
is retrievable via lookup immediately after the connect event, and
immediately after a block is disconnected its transactions are no longer
retrievable. -/
theorem claim1_coverage_invariant :
    (∀ evs : List ChainEvent, ValidFrom [] evs → ∀ t : Txid,
      ((runEvents true initState evs).db.get t).isSome ↔
        t ∈ chainTxids (runChain [] evs)) ∧
    (∀ evs : List ChainEvent, ∀ b : Block, ∀ h : Nat,
      ValidFrom [] (evs ++ [ChainEvent.connect b h]) →
      ∀ t ∈ blockTxids b,
        ∃ raw bh hh,
          lookup true
            (runEvents true initState (evs ++ [ChainEvent.connect b h])) t =
            .found raw bh hh) ∧
    (∀ evs : List ChainEvent, ∀ b : Block, ∀ h : Nat,
      ValidFrom [] (evs ++ [ChainEvent.disconnect b h]) →
      ∀ t ∈ blockTxids b,
        lookup true
          (runEvents true initState (evs ++ [ChainEvent.disconnect b h])) t =
          .notFound) := by
  refine ⟨?_, ?_, ?_⟩
  · intro evs hv t
    obtain ⟨hnd, hrec⟩ := inv_run [] initState evs inv_init hv
    cases hf : chainFind (runChain [] evs) t with
    | some p =>
      obtain ⟨b, h, tx⟩ := p
      obtain ⟨r, hget, -, -, -⟩ := (hrec t).1 b h tx hf
      constructor
      · intro _
        exact chainFind_some_mem _ _ _ _ _ hf
      · intro _
        rw [hget]
        rfl
    | none =>
      have hget := (hrec t).2 hf
      constructor
      · intro hs
        rw [hget] at hs
        simp at hs
      · intro hm
        exact absurd hm ((chainFind_eq_none_iff _ _).mp hf)
  · intro evs b h hv t ht
    have hrc : runChain [] (evs ++ [ChainEvent.connect b h]) =
        (b, h) :: runChain [] evs := by
      rw [runChain, List.foldl_append]
      rfl
    obtain ⟨tx, hftx⟩ := find_txid_of_mem b t ht
    have hfc : chainFind (runChain [] (evs ++ [ChainEvent.connect b h])) t =
        some (b, h, tx) := by
      rw [hrc]
      simp [chainFind, hftx]
    exact ⟨txBytes tx, b.hash, h,
      lookup_found_of_chainFind _ hv t b h tx hfc⟩
  · intro evs b h hv t ht
    have hfinal : runEvents true initState (evs ++ [ChainEvent.disconnect b h]) =
        stepEvent true (runEvents true initState evs)
          (ChainEvent.disconnect b h) := by
      rw [runEvents, List.foldl_append]
      rfl
    have hget : (runEvents true initState
        (evs ++ [ChainEvent.disconnect b h])).db.get t = none := by
      rw [hfinal]
      show ((runEvents true initState evs).db.batch _).get t = none
      rw [get_batch, map_remove_txids, opsEffect_removes]
      simp only [blockTxids] at ht
      rw [if_pos ht]
    simp [lookup, lookupM, hget]

/-- A one-block connect used by the concrete witnesses. -/
def wTx1 : Tx := ⟨5, ⟨[], [⟨7, []⟩]⟩⟩

/-- The block containing `wTx1`. -/
def wBlk1 : Block := ⟨100, [wTx1]⟩

theorem claim1_coverage_invariant_witness :
    ValidFrom [] ([] ++ [ChainEvent.connect wBlk1 1]) ∧
    (∃ raw bh hh,
      lookup true
        (runEvents true initState ([] ++ [ChainEvent.connect wBlk1 1])) 5 =
        .found raw bh hh) :=
  ⟨validFromb_sound _ _ (by decide),
    claim1_coverage_invariant.2.1 [] wBlk1 1
      (validFromb_sound _ _ (by decide)) 5 (by decide)⟩

/-- C2: for every output of a verbose decode, the indivisible-unit amount
equals the display amount times the fixed scale factor exactly:
valueZat = value × scaleFactor with no rounding drift. -/
theorem claim2_amount_consistency (tx : CTransaction) (bh h : Nat)
    (vo : VerboseOut) (hmem : vo ∈ (decodeVerbose tx bh h).vout) :
    (vo.valueZat : ℚ) = vo.value * (scaleFactor : ℚ) := by
  simp only [decodeVerbose] at hmem
  obtain ⟨o, ho, heq⟩ := List.mem_map.mp hmem
  subst heq
  have hne : (scaleFactor : ℚ) ≠ 0 := by norm_num [scaleFactor]
  simp only [decodeOut]
  exact (div_mul_cancel₀ _ hne).symm

theorem claim2_amount_consistency_witness :
    decodeOut ⟨3, []⟩ ∈ (decodeVerbose ⟨[], [⟨3, []⟩]⟩ 0 0).vout ∧
    ((decodeOut ⟨3, []⟩).valueZat : ℚ) =
      (decodeOut ⟨3, []⟩).value * (scaleFactor : ℚ) :=
  ⟨by simp [decodeVerbose], claim2_amount_consistency ⟨[], [⟨3, []⟩]⟩ 0 0
    (decodeOut ⟨3, []⟩) (by simp [decodeVerbose])⟩

/-- C3: with indexing enabled, when the transaction spending an existing
output to a height-commitment script is connected in block 106, lookup of
that transaction returns a verbose result whose vout[0].valueZat equals the
input amount in indivisible units and whose value equals the original
display amount. -/
theorem claim3_height_commit_scenario (evs : List ChainEvent) (b : Block)
    (tx0 : Tx) (a : ℚ) (n : Nat) (spk : Bytes)
    (hv : ValidFrom [] evs)
    (hf : chainFind (runChain [] evs) tx0.txid = some (b, 106, tx0))
    (hvout : tx0.tx.vout = [⟨n, spk⟩])
    (ha : to_satoshis a = (n : ℚ)) :
    lookup true (runEvents true initState evs) tx0.txid =
      .found (txBytes tx0) b.hash 106 ∧
    parseTx (txBytes tx0) = some (tx0.tx, []) ∧
    (decodeVerbose tx0.tx b.hash 106).vout = [decodeOut ⟨n, spk⟩] ∧
    (decodeOut ⟨n, spk⟩).valueZat = n ∧
    (decodeOut ⟨n, spk⟩).value = a := by
  refine ⟨lookup_found_of_chainFind evs hv tx0.txid b 106 tx0 hf,
    parseTx_serializeTx tx0.tx, ?_, rfl, ?_⟩
  · simp [decodeVerbose, hvout]
  · simp only [decodeOut]
    rw [← ha]
    simp only [to_satoshis]
    exact mul_div_cancel_right₀ a (by norm_num [scaleFactor])

/-- The spending transaction of the witness scenario: one input, one
output of 10 coins (10^9 zatoshi). -/
def wTx3 : Tx := ⟨99, ⟨[⟨55, 0⟩], [⟨1000000000, []⟩]⟩⟩

/-- Block 106 of the witness scenario. -/
def wBlk3 : Block := ⟨500, [wTx3]⟩

theorem claim3_height_commit_scenario_witness :
    ValidFrom [] [ChainEvent.connect wBlk3 106] ∧
    chainFind (runChain [] [ChainEvent.connect wBlk3 106]) wTx3.txid =
      some (wBlk3, 106, wTx3) ∧
    wTx3.tx.vout = [⟨1000000000, []⟩] ∧
    to_satoshis 10 = ((1000000000 : Nat) : ℚ) ∧
    (lookup true (runEvents true initState [ChainEvent.connect wBlk3 106])
        wTx3.txid = .found (txBytes wTx3) wBlk3.hash 106 ∧
      parseTx (txBytes wTx3) = some (wTx3.tx, []) ∧
      (decodeVerbose wTx3.tx wBlk3.hash 106).vout =
        [decodeOut ⟨1000000000, []⟩] ∧
      (decodeOut ⟨1000000000, []⟩).valueZat = 1000000000 ∧
      (decodeOut ⟨1000000000, []⟩).value = 10) :=
  ⟨validFromb_sound _ _ (by decide), by decide, rfl,
    by norm_num [to_satoshis, scaleFactor],
    claim3_height_commit_scenario [ChainEvent.connect wBlk3 106] wBlk3 wTx3
      10 1000000000 [] (validFromb_sound _ _ (by decide)) (by decide) rfl
      (by norm_num [to_satoshis, scaleFactor])⟩

/-- C4: when the indexing startup option is disabled, lookup returns the
negative `disabledIndex` result (distinguishable from a found transaction)
for every txid regardless of chain state, never raw bytes, and
ChainIndexer performs no writes. -/
theorem claim4_disabled_no_writes (evs : List ChainEvent) (s : NodeState)
    (t : Txid) :
    runEvents false s evs = s ∧
    lookup false s t = .disabledIndex ∧
    ∀ raw bh h, lookup false s t ≠ .found raw bh h := by
  refine ⟨?_, rfl, ?_⟩
  · have hstep : ∀ (s0 : NodeState) (e : ChainEvent),
        stepEvent false s0 e = s0 := by
      intro s0 e
      cases e <;> simp [stepEvent]
    induction evs generalizing s with
    | nil => rfl
    | cons e es ih =>
      show runEvents false (stepEvent false s e) es = s
      rw [hstep]
      exact ih s
  · intro raw bh h hc
    simp [lookup, lookupM] at hc

/-- The reorg event stream of C5: chain A→B→C replaced by A→B'→C' sharing
fork point A (disconnect tip-down, connect bottom-up, spec §4.3). -/
def reorgTrace (bA bB bC bB2 bC2 : Block) : List ChainEvent :=
  [.connect bA 1, .connect bB 2, .connect bC 3,
   .disconnect bC 3, .disconnect bB 2,
   .connect bB2 2, .connect bC2 3]

/-- C5: after the reorg replacing A→B→C with A→B'→C', transactions unique
to B or C are not found, transactions of B' or C' are found, and a txid
present in both the disconnected branch and the new branch ends at the
final branch's record, because the connect is applied after the
disconnect's removal. -/
theorem claim5_reorg (bA bB bC bB2 bC2 : Block)
    (hv : ValidFrom [] (reorgTrace bA bB bC bB2 bC2)) :
    (∀ t : Txid, t ∈ blockTxids bB ∨ t ∈ blockTxids bC →
      t ∉ blockTxids bA → t ∉ blockTxids bB2 → t ∉ blockTxids bC2 →
      lookup true (runEvents true initState (reorgTrace bA bB bC bB2 bC2)) t =
        .notFound) ∧
    (∀ t : Txid, t ∈ blockTxids bB2 ∨ t ∈ blockTxids bC2 →
      ∃ raw bh h,
        lookup true (runEvents true initState (reorgTrace bA bB bC bB2 bC2)) t =
          .found raw bh h) ∧
    (∀ t : Txid, t ∈ blockTxids bB ∨ t ∈ blockTxids bC →
      t ∈ blockTxids bB2 ∨ t ∈ blockTxids bC2 →
      ∃ r : IndexRecord,
        (runEvents true initState (reorgTrace bA bB bC bB2 bC2)).db.get t =
          some r ∧
        ((t ∈ blockTxids bC2 → r.blockHash = bC2.hash ∧ r.height = 3) ∧
         (t ∉ blockTxids bC2 → r.blockHash = bB2.hash ∧ r.height = 2))) := by
  have hrc : runChain [] (reorgTrace bA bB bC bB2 bC2) =
      [(bC2, 3), (bB2, 2), (bA, 1)] := rfl
  obtain ⟨hnd, hrec⟩ := inv_run [] initState _ inv_init hv
  refine ⟨?_, ?_, ?_⟩
  · intro t hmemBC hnA hnB2 hnC2
    have hnc : t ∉ chainTxids (runChain [] (reorgTrace bA bB bC bB2 bC2)) := by
      rw [hrc]
      intro hc
      simp only [chainTxids] at hc
      rcases List.mem_append.mp hc with h1 | h2
      · exact hnC2 h1
      rcases List.mem_append.mp h2 with h3 | h4
      · exact hnB2 h3
      rcases List.mem_append.mp h4 with h5 | h6
      · exact hnA h5
      · exact absurd h6 (List.not_mem_nil t)
    have hget := (hrec t).2 ((chainFind_eq_none_iff _ _).mpr hnc)
    simp [lookup, lookupM, hget]
  · intro t hmem
    have htc : t ∈ chainTxids (runChain [] (reorgTrace bA bB bC bB2 bC2)) := by
      rw [hrc]
      simp only [chainTxids]
      rcases hmem with h | h
      · exact List.mem_append.mpr (Or.inr (List.mem_append.mpr (Or.inl h)))
      · exact List.mem_append.mpr (Or.inl h)
    cases hf : chainFind (runChain [] (reorgTrace bA bB bC bB2 bC2)) t with
    | none => exact absurd htc ((chainFind_eq_none_iff _ _).mp hf)
    | some p =>
      obtain ⟨b0, h0, tx0⟩ := p
      exact ⟨txBytes tx0, b0.hash, h0,
        lookup_found_of_chainFind _ hv t b0 h0 tx0 hf⟩
  · intro t hmemBC hmemNew
    by_cases hC2 : t ∈ blockTxids bC2
    · obtain ⟨tx, hftx⟩ := find_txid_of_mem bC2 t hC2
      have hfc : chainFind (runChain [] (reorgTrace bA bB bC bB2 bC2)) t =
          some (bC2, 3, tx) := by
        rw [hrc]
        simp [chainFind, hftx]
      obtain ⟨r, hget, hbh, hht, -⟩ := (hrec t).1 bC2 3 tx hfc
      exact ⟨r, hget, fun _ => ⟨hbh, hht⟩, fun hn => absurd hC2 hn⟩
    · have hB2 : t ∈ blockTxids bB2 := by
        rcases hmemNew with h | h
        · exact h
        · exact absurd h hC2
      obtain ⟨tx, hftx⟩ := find_txid_of_mem bB2 t hB2
      have hfC2 : bC2.txs.find? (fun tx => tx.txid == t) = none :=
        (find_txid_eq_none _ _).mpr hC2
      have hfc : chainFind (runChain [] (reorgTrace bA bB bC bB2 bC2)) t =
          some (bB2, 2, tx) := by
        rw [hrc]
        simp [chainFind, hfC2, hftx]
      obtain ⟨r, hget, hbh, hht, -⟩ := (hrec t).1 bB2 2 tx hfc
      exact ⟨r, hget, fun hc => absurd hc hC2, fun _ => ⟨hbh, hht⟩⟩

/-- Fork-point block A of the witness reorg. -/
def wA : Block := ⟨1, [⟨10, ⟨[], []⟩⟩]⟩

/-- Disconnected branch block B; its txid 20 reappears in B'. -/
def wB : Block := ⟨2, [⟨20, ⟨[], []⟩⟩]⟩

/-- Disconnected branch block C. -/
def wC : Block := ⟨3, [⟨30, ⟨[], []⟩⟩]⟩

/-- New branch block B', defensively reusing txid 20. -/
def wB2 : Block := ⟨4, [⟨20, ⟨[], []⟩⟩, ⟨40, ⟨[], []⟩⟩]⟩

/-- New branch block C', defensively reusing txid 30 of block C. -/
def wC2 : Block := ⟨5, [⟨30, ⟨[], []⟩⟩, ⟨50, ⟨[], []⟩⟩]⟩

theorem claim5_reorg_witness :
    ValidFrom [] (reorgTrace wA wB wC wB2 wC2) ∧
    (30 ∈ blockTxids wB ∨ 30 ∈ blockTxids wC) ∧
    (30 ∈ blockTxids wB2 ∨ 30 ∈ blockTxids wC2) ∧
    (∃ r : IndexRecord,
      (runEvents true initState (reorgTrace wA wB wC wB2 wC2)).db.get 30 =
        some r ∧
      ((30 ∈ blockTxids wC2 → r.blockHash = wC2.hash ∧ r.height = 3) ∧
       (30 ∉ blockTxids wC2 → r.blockHash = wB2.hash ∧ r.height = 2))) :=
  ⟨validFromb_sound _ _ (by decide), by decide, by decide,
    (claim5_reorg wA wB wC wB2 wC2
      (validFromb_sound _ _ (by decide))).2.2 30 (by decide) (by decide)⟩

/-- C6: a batch commit is atomic, also across a crash: at every crash point
of the journaled commit, the recovered table equals the pre-batch state or
the post-batch state on every key — never a partial mix. -/
theorem claim6_batch_crash_atomic (db : IndexDB) (ops : List Op)
    (cp : CrashPoint) :
    (∀ t : Txid, (recover (durableAt db ops cp)).get t = db.get t) ∨
    (∀ t : Txid, (recover (durableAt db ops cp)).get t =
      (db.batch ops).get t) := by
  cases cp with
  | start => exact Or.inl fun t => rfl
  | journaled => exact Or.inl fun t => rfl
  | committed j =>
    refine Or.inr fun t => ?_
    show ((db.batch (ops.take j)).batch ops).get t = (db.batch ops).get t
    rw [get_batch, get_batch, get_batch, opsEffect_replay]
  | finished => exact Or.inr fun t => rfl

/-- C7: for every indexed transaction, lookup returns exactly the bytes
originally stored for it, and those bytes deserialize back to the
transaction whose re-serialization is byte-for-byte the stored bytes. -/
theorem claim7_roundtrip (evs : List ChainEvent) (hv : ValidFrom [] evs)
    (t : Txid) (b : Block) (h : Nat) (tx : Tx)
    (hf : chainFind (runChain [] evs) t = some (b, h, tx)) :
    lookup true (runEvents true initState evs) t =
      .found (txBytes tx) b.hash h ∧
    parseTx (txBytes tx) = some (tx.tx, []) ∧
    serializeTx tx.tx = txBytes tx :=
  ⟨lookup_found_of_chainFind evs hv t b h tx hf,
    parseTx_serializeTx tx.tx, rfl⟩

theorem claim7_roundtrip_witness :
    ValidFrom [] [ChainEvent.connect wBlk1 1] ∧
    chainFind (runChain [] [ChainEvent.connect wBlk1 1]) 5 =
      some (wBlk1, 1, wTx1) ∧
    (lookup true (runEvents true initState [ChainEvent.connect wBlk1 1]) 5 =
        .found (txBytes wTx1) wBlk1.hash 1 ∧
      parseTx (txBytes wTx1) = some (wTx1.tx, []) ∧
      serializeTx wTx1.tx = txBytes wTx1) :=
  ⟨validFromb_sound _ _ (by decide), by decide,
    claim7_roundtrip [ChainEvent.connect wBlk1 1]
      (validFromb_sound _ _ (by decide)) 5 wBlk1 1 wTx1 (by decide)⟩

/-- C8: IndexDB.put is idempotent — putting the same (txid, record) twice
yields the same table as putting it once, hence an observably identical
state. -/
theorem claim8_put_idempotent (db : IndexDB) (t : Txid) (r : IndexRecord) :
    (db.put t r).put t r = db.put t r ∧
    ∀ q : Txid, ((db.put t r).put t r).get q = (db.put t r).get q := by
  have h : (db.put t r).put t r = db.put t r := by
    simp only [IndexDB.put]
    have hr : IndexDB.remove ((t, r) :: IndexDB.remove db t) t =
        IndexDB.remove (IndexDB.remove db t) t := by
      simp [IndexDB.remove]
    rw [hr, IndexDB.remove_idem]
  exact ⟨h, fun q => by rw [h]⟩

/-- C9: lookup is read-only — for every txid it leaves IndexDB and
BlockStore unchanged, whether the result is found, notFound,
corruptStorage or disabledIndex. -/
theorem claim9_lookup_readonly (enabled : Bool) (s : NodeState) (t : Txid) :
    (lookupM enabled s t).2 = s ∧
    (lookupM enabled s t).2.db = s.db ∧
    (lookupM enabled s t).2.bs = s.bs := by
  have h2 : (lookupM enabled s t).2 = s := by
    cases enabled with
    | false => rfl
    | true =>
      cases hg : s.db.get t with
      | none => simp [lookupM, hg]
      | some r =>
        cases hr : s.bs.read r.offset r.length with
        | none => simp [lookupM, hg, hr]
        | some bytes => simp [lookupM, hg, hr]
  exact ⟨h2, by rw [h2], by rw [h2]⟩

/-- C10: the test's height-commitment script embeds a consistent
(hash, height) pair — it commits to the byte-reversed hash of the first
mined block together with the height literal 1, which is exactly the
height of that same block. -/
theorem claim10_script_commitment (b0 : Bytes) (rest : List Bytes)
    (addrHash : Bytes) :
    committedPair (testScriptPubKey (b0 :: rest) addrHash) =
      some (swap_bytes b0, 1) ∧
    minedHeight 0 = 1 ∧
    blockAtHeight (b0 :: rest) (minedHeight 0) = some b0 :=
  ⟨rfl, rfl, rfl⟩

end TxIndex
